import Mathlib

/-!
Verification of the MultiSense-Agent RAG pipeline, conversation memory and
webhook logic, shallowly embedded from the Python sources
(`app/services/rag_engine.py`, `app/services/hf_service.py`,
`app/services/memory_service.py`, `app/services/whatsapp_service.py`,
`app/routes/webhook.py`, `app/services/processor.py`).

Numbers returned by the embedding API are modelled as rationals; the
normalizer combines values with `+` and `/` exactly as the Python source does,
so every claim here is about which elements are combined, not about IEEE
rounding.
-/

namespace MultiSense

/-- A Python value as seen by the embedding normalizers
(`HFEmbeddings._normalize` and `HFService._normalize_embedding`, which are
textually identical): either a number (a Python float) or a list of values.
Inputs are taken after the initial `tolist()` conversion of array-likes. -/
inductive EmbVal where
  | num : ℚ → EmbVal
  | arr : List EmbVal → EmbVal

/-- `isinstance(v, list)` -/
def EmbVal.isList : EmbVal → Bool
  | .num _ => false
  | .arr _ => true

/-- The elements of a Python list; a bare float has none. -/
def EmbVal.items : EmbVal → List EmbVal
  | .num _ => []
  | .arr l => l

/-- `float(v)`: the numeric value of a cell.  On a list Python would raise
`TypeError`; the claims only evaluate this on numeric cells, where the
default `0` is never reached. -/
def EmbVal.asFloat : EmbVal → ℚ
  | .num x => x
  | .arr _ => 0

/-- The 2-D branch shared by both normalizers: `result[0]` is a list, so
mean-pool across the token axis, else coerce elementwise to float.
`result[t][d]` is modelled with out-of-range defaults that the rectangular
inputs of the claims never reach. -/
def normalizePool (result : List EmbVal) : List ℚ :=
  match result with
  | [] => []
  | r0 :: _ =>
    if r0.isList then
      let numTokens := result.length
      let dim := r0.items.length
      (List.range dim).map fun d =>
        ((List.range numTokens).map fun t =>
          (((result.getD t (.arr [])).items.getD d (.num 0)).asFloat)).sum / numTokens
    else
      result.map EmbVal.asFloat

/-- `HFEmbeddings._normalize` = `HFService._normalize_embedding`
(`rag_engine.py` lines 53-75, `hf_service.py` lines 194-226):

* not a list: `[float(result)]`;
* empty list: `list(result)`, i.e. the empty list;
* `result[0]` is a non-empty list whose first element is a list
  (3-D input): replace `result` by `result[0]`;
* then mean-pool a 2-D `result`, or coerce a 1-D one elementwise. -/
def normalize (v : EmbVal) : List ℚ :=
  match v with
  | .num x => [x]
  | .arr [] => []
  | .arr (r0 :: rest) =>
    let result : List EmbVal :=
      match r0 with
      | .arr (c0 :: cs) => if c0.isList then c0 :: cs else r0 :: rest
      | _ => r0 :: rest
    normalizePool result

/-- Injection of a rectangular rank-2 numeric array into `EmbVal`. -/
def toEmb (rows : List (List ℚ)) : EmbVal :=
  .arr (rows.map fun r => .arr (r.map EmbVal.num))

/-- A batch element is rank 2 when it is a list of lists of numbers. -/
def isRank2 (v : EmbVal) : Bool :=
  match v with
  | .arr rows => rows.all fun r =>
      match r with
      | .arr cells => cells.all fun c => !c.isList
      | .num _ => false
  | .num _ => false

/-! ### RAG retrieval (`RAGEngine.retrieve_context`, `rag_engine.py` lines 223-276) -/

/-- One nearest-neighbor hit as consumed by `retrieve_context`: the stored
chunk text and its `source` metadata value (absent when the metadata lacks
the key). -/
structure RagResult where
  doc : String
  source : Option String
deriving DecidableEq

/-- `meta.get("source", "unknown")` -/
def RagResult.sourceName (r : RagResult) : String := r.source.getD "unknown"

/-- Outcome of the `try` block's three fallible steps: the collection lookup,
the query-embedding call, or the search can each raise, otherwise the search
yields a (possibly empty) result list. -/
inductive RagQueryOutcome where
  | collectionError
  | embedError
  | searchError
  | results : List RagResult → RagQueryOutcome

/-- Deduplication in order of first appearance: the membership set of a
Python `set` built by inserting the elements of `l` left to right. -/
def distinctFirst (l : List String) : List String :=
  l.foldl (fun acc s => if s ∈ acc then acc else acc ++ [s]) []

/-- A possible iteration order of a Python `set`: `list(s)` enumerates each
distinct inserted element exactly once, in an order the language does not
specify (string hashing is randomized), modelled as an arbitrary function
`enum` subject to this contract. -/
def IsSetEnum (enum : List String → List String) : Prop :=
  ∀ l, (enum l).Perm (distinctFirst l)

/-- `RAGEngine.retrieve_context`, parametrized by the set-iteration order
`enum` and by the outcome of the fallible store/embedding steps.  Any raised
error is caught and mapped to `("", [])`; an empty hit list also returns
`("", [])`; otherwise the chunk texts are joined with the visible separator
and `list(sources)` enumerates the set of `source` values. -/
def retrieve_context (enum : List String → List String) (o : RagQueryOutcome) :
    String × List String :=
  match o with
  | .collectionError => ("", [])
  | .embedError => ("", [])
  | .searchError => ("", [])
  | .results [] => ("", [])
  | .results (r :: rs) =>
    (String.intercalate "\n\n---\n\n" ((r :: rs).map RagResult.doc),
      enum ((r :: rs).map RagResult.sourceName))

/-! ### Ingestion (`RAGEngine.ingest_document` / `ingest_pdf`,
`rag_engine.py` lines 147-221) -/

/-- A mutation issued to the vector store. -/
inductive StoreOp where
  | getOrCreateCollection
  | upsert (ids : List String) (docs : List String) (sources : List String)
deriving DecidableEq

/-- Python `str.strip()` whitespace characters (the ASCII ones; the claims
only use these). -/
def isPySpace (c : Char) : Bool :=
  c = ' ' || c = '\t' || c = '\n' || c = '\r' || c = '\x0b' || c = '\x0c'

/-- `not content.strip()`: the string is empty or all whitespace. -/
def strippedEmpty (s : String) : Bool := s.toList.all isPySpace

/-- Contract of the external `RecursiveCharacterTextSplitter.split_text`
(langchain, `strip_whitespace=True` default): chunks are stripped and empty
chunks dropped, so whitespace-only input yields no chunks. -/
def SplitterSpec (split : String → List String) : Prop :=
  ∀ s, strippedEmpty s = true → split s = []

/-- `RAGEngine.ingest_document`, parametrized by the external text splitter
and the `md5(filename)[:8]` digest function.  Returns the chunk count and
the trace of vector-store operations: nothing when splitting yields no
chunks, else one `get_or_create_collection` followed by one batch `upsert`
of ids `hash_chunk_i`, the chunk texts, and their `source` metadata. -/
def ingest_document (split : String → List String) (hash8 : String → String)
    (content filename : String) : Nat × List StoreOp :=
  let chunks := split content
  if chunks.isEmpty then (0, [])
  else
    let ids := (List.range chunks.length).map fun i =>
      hash8 filename ++ "_chunk_" ++ toString i
    (chunks.length,
      [.getOrCreateCollection,
       .upsert ids chunks (chunks.map fun _ => filename)])

/-- `RAGEngine.ingest_pdf`, taking the text already extracted from the PDF
(extraction itself is the external PyPDF2 reader): returns 0 with no store
operation when the extracted text strips to empty, else ingests it. -/
def ingest_pdf (split : String → List String) (hash8 : String → String)
    (extractedText filename : String) : Nat × List StoreOp :=
  if strippedEmpty extractedText then (0, [])
  else ingest_document split hash8 extractedText filename

/-! ### Conversation memory (`MemoryService`, `memory_service.py`) -/

/-- `MessageType` (`app/models.py`). -/
inductive MessageType where
  | text
  | voice
  | image
  | document
deriving DecidableEq

/-- `ConversationTurn` (`app/models.py`), without the wall-clock timestamp
field, which no claim reads. -/
structure Turn where
  role : String
  content : String
  mtype : MessageType
deriving DecidableEq

/-- `ConversationHistory`: the per-session record mutated by
`MemoryService`.  Timestamps are abstract instants (an ordered `ℤ`). -/
structure Conv where
  turns : List Turn
  updatedAt : ℤ
deriving DecidableEq

/-- `self._conversations`: an insertion-ordered dict, as an association
list with (in reachable states) pairwise distinct keys. -/
abbrev MemoryState := List (String × Conv)

/-- `self._conversations.get(sid)` / `sid in self._conversations`. -/
def findConv : MemoryState → String → Option Conv
  | [], _ => none
  | (k, v) :: rest, sid => if k = sid then some v else findConv rest sid

/-- Dict write `self._conversations[sid] = c`: replaces in place, or appends
a new key at the end. -/
def updateConv : MemoryState → String → Conv → MemoryState
  | [], sid, c => [(sid, c)]
  | (k, v) :: rest, sid, c =>
    if k = sid then (k, c) :: rest else (k, v) :: updateConv rest sid c

/-- The stored turn list of a session (empty when absent). -/
def turnsOf (st : MemoryState) (sid : String) : List Turn :=
  ((findConv st sid).map Conv.turns).getD []

/-- The dict invariant: session keys are pairwise distinct.  Holds of the
empty initial state and is preserved by every service operation. -/
def keysNodup (st : MemoryState) : Prop := (st.map Prod.fst).Nodup

/-- Python slice `l[-max:]` (note `l[-0:]` is the whole list). -/
def pyTailSlice {α : Type} (max : Nat) (l : List α) : List α :=
  if max = 0 then l else l.drop (l.length - max)

/-- The list-level effect of one `add_turn` on a session's turn list:
append, then `turns = turns[-max_history:]` when the length exceeds
`max_history`. -/
def addTurnList (maxHistory : Nat) (turns : List Turn) (t : Turn) : List Turn :=
  let l := turns ++ [t]
  if maxHistory < l.length then pyTailSlice maxHistory l else l

/-- `MemoryService.add_turn` (lines 33-62): create the session if absent,
append the turn, stamp `updated_at = now`, trim to the configured maximum. -/
def add_turn (maxHistory : Nat) (st : MemoryState) (sid : String)
    (role content : String) (mtype : MessageType) (now : ℤ) : MemoryState :=
  let conv := (findConv st sid).getD ⟨[], now⟩
  updateConv st sid ⟨addTurnList maxHistory conv.turns ⟨role, content, mtype⟩, now⟩

/-- A sequence of `add_turn` calls on one session; each entry carries the
turn and the instant of the call. -/
def addTurns (maxHistory : Nat) (st : MemoryState) (sid : String)
    (entries : List (Turn × ℤ)) : MemoryState :=
  entries.foldl (fun s e => add_turn maxHistory s sid e.1.role e.1.content e.1.mtype e.2) st

/-- `MemoryService._cleanup_expired` (lines 96-106): delete every session
whose `updated_at` is before `now - ttl`. -/
def cleanupExpired (ttl now : ℤ) (st : MemoryState) : MemoryState :=
  st.filter fun p => !decide (p.2.updatedAt < now - ttl)

/-- `MemoryService.get_history` (lines 64-70): sweep, then return the
session's turns or `[]`; the swept state is returned alongside since the
sweep mutates it. -/
def get_history (ttl now : ℤ) (st : MemoryState) (sid : String) :
    List Turn × MemoryState :=
  let st2 := cleanupExpired ttl now st
  (turnsOf st2 sid, st2)

/-- `MemoryService.get_active_sessions` (lines 91-94): sweep, then list the
remaining session ids. -/
def get_active_sessions (ttl now : ℤ) (st : MemoryState) :
    List String × MemoryState :=
  let st2 := cleanupExpired ttl now st
  (st2.map Prod.fst, st2)

/-- A chat-completion message dict, freshly built by `get_chat_messages`. -/
structure ChatMessage where
  role : String
  content : String
deriving DecidableEq

/-- `MemoryService.get_chat_messages` (lines 72-81): new dicts built from
the stored turns. -/
def get_chat_messages (ttl now : ℤ) (st : MemoryState) (sid : String) :
    List ChatMessage × MemoryState :=
  let (turns, st2) := get_history ttl now st sid
  (turns.map fun t => ⟨t.role, t.content⟩, st2)

/-! ### Webhook verification (`WhatsAppService.verify_webhook`,
`whatsapp_service.py` lines 203-219, and the GET route,
`routes/webhook.py` lines 18-38) -/

/-- `WhatsAppService.verify_webhook`: the challenge when the handshake is
valid, `None` otherwise. -/
def verify_webhook (verifyToken mode token challenge : String) : Option String :=
  if mode = "subscribe" ∧ token = verifyToken then some challenge else none

/-- Python truthiness of an `Optional[str]`: `None` and `""` are falsy. -/
def pyTruthyStr : Option String → Bool
  | none => false
  | some s => !s.isEmpty

/-- An HTTP response as produced by the route. -/
structure HttpResponse where
  status : Nat
  body : String
deriving DecidableEq

/-- The GET `/api/v1/webhook/whatsapp` handler: calls the service, then
`if result:` returns the challenge with 200, else raises
`HTTPException(403)`. -/
def verify_webhook_route (verifyToken mode token challenge : String) : HttpResponse :=
  let result := verify_webhook verifyToken mode token challenge
  if pyTruthyStr result then ⟨200, result.getD ""⟩
  else ⟨403, "Webhook verification failed"⟩

/-! ### Text processing (`MultiModalProcessor.process_text`,
`processor.py` lines 54-114) -/

/-- The RAG preamble spliced around the retrieved context. -/
def augmentedPrompt (context text : String) : String :=
  "Use the following context to answer the user's question. " ++
  "If the context is not relevant, answer from your general knowledge.\n\n" ++
  "--- Retrieved Context ---\n" ++ context ++ "\n--- End Context ---\n\n" ++
  "User Question: " ++ text

/-- `history[-1]["content"] = augmented_prompt`: mutate the content of the
last freshly built message dict. -/
def setLastContent : List ChatMessage → String → List ChatMessage
  | [], _ => []
  | [m], c => [{ m with content := c }]
  | m :: m2 :: ms, c => m :: setLastContent (m2 :: ms) c

/-- The caller-facing envelope of `process_text` (`ChatResponse` without the
wall-clock `processing_time`). -/
structure ProcessReply where
  response : String
  session_id : String
  sources : List String
deriving DecidableEq

/-- `MultiModalProcessor.process_text`, parametrized by the set-iteration
order `enum`, the retrieval outcome `ragOutcome`, and the language model's
reply `llmReply`; all calls share the instant `now`.  Returns the final
memory state, the message list handed to `chat_completion`, and the
response envelope.  Steps: record the user turn; retrieve context when
`use_rag`; build the augmented prompt when context is non-empty; rebuild the
history as fresh dicts; overwrite the last dict's content with the augmented
prompt; call the model; record the assistant turn. -/
def process_text (maxHistory : Nat) (ttl : ℤ)
    (enum : List String → List String) (st : MemoryState)
    (sid text : String) (useRag : Bool) (ragOutcome : RagQueryOutcome)
    (llmReply : String) (now : ℤ) :
    MemoryState × List ChatMessage × ProcessReply :=
  let st1 := add_turn maxHistory st sid "user" text .text now
  let ragPair := if useRag then retrieve_context enum ragOutcome else ("", [])
  let augmented :=
    if ragPair.1.isEmpty then text else augmentedPrompt ragPair.1 text
  let hist := get_chat_messages ttl now st1 sid
  let sent := if hist.1.isEmpty then hist.1 else setLastContent hist.1 augmented
  let st3 := add_turn maxHistory hist.2 sid "assistant" llmReply .text now
  (st3, sent, ⟨llmReply, sid, ragPair.2⟩)

section NormalizeLemmas

/-- Mapping an index-read over `List.range l.length` is mapping over `l`. -/
theorem range_map_getD {α β : Type} (l : List α) (d : α) (f : α → β) :
    (List.range l.length).map (fun t => f (l.getD t d)) = l.map f := by
  induction l with
  | nil => rfl
  | cons a tl ih =>
    simp only [List.length_cons, List.range_succ_eq_map, List.map_cons, List.map_map]
    refine congrArg₂ _ rfl ?_
    rw [← ih]
    rfl

/-- `getD` commutes with `map` when the default is also mapped. -/
theorem getD_map {α β : Type} (l : List α) (f : α → β) (n : Nat) (d : α) :
    (l.map f).getD n (f d) = f (l.getD n d) := by
  induction l generalizing n with
  | nil => rfl
  | cons a tl ih => cases n with
    | zero => rfl
    | succ m => simp [ih m]

/-- Closed form of `normalize` on an injected (not necessarily rectangular)
rank-2 input: one mean per column of the leading row's width. -/
theorem normalize_toEmb_cons (r0 : List ℚ) (rest : List (List ℚ)) :
    normalize (toEmb (r0 :: rest)) =
      (List.range r0.length).map fun d =>
        (((r0 :: rest).map fun r => r.getD d 0).sum) / (((r0 :: rest).length : ℚ)) := by
  cases r0 with
  | nil => rfl
  | cons c tl =>
    have h : normalize (toEmb ((c :: tl) :: rest)) =
        (List.range (((c :: tl).map EmbVal.num).length)).map fun d =>
          ((List.range ((((c :: tl) :: rest).map fun r =>
              EmbVal.arr (r.map EmbVal.num)).length)).map (fun t =>
            (((((c :: tl) :: rest).map fun r =>
              EmbVal.arr (r.map EmbVal.num)).getD t (EmbVal.arr [])).items.getD d
                (EmbVal.num 0)).asFloat)).sum /
          (((((c :: tl) :: rest).map fun r =>
              EmbVal.arr (r.map EmbVal.num)).length : Nat) : ℚ) := rfl
    rw [h]
    simp only [List.length_map]
    refine congrArg (fun g => List.map g (List.range ((c :: tl).length))) (funext fun d => ?_)
    have h2 := range_map_getD (((c :: tl) :: rest).map fun r => EmbVal.arr (r.map EmbVal.num))
      (EmbVal.arr []) (fun e => ((e.items.getD d (EmbVal.num 0)).asFloat))
    simp only [List.length_map] at h2
    rw [h2]
    simp only [List.map_map, Function.comp_def, EmbVal.items, getD_map, EmbVal.asFloat]

end NormalizeLemmas

/-- C2: for every rank-2 embedding input that is a rectangular list of T
non-empty token rows each of width D (T ≥ 1), the normalization function
returns a list of exactly D floats where output[d] equals the arithmetic
mean over t of input[t][d]. -/
theorem normalize_rank2_mean (rows : List (List ℚ)) (D : Nat)
    (hne : rows ≠ []) (hD : 0 < D) (hrect : ∀ r ∈ rows, r.length = D) :
    (normalize (toEmb rows)).length = D ∧
    ∀ d, d < D → (normalize (toEmb rows)).getD d 0 =
      ((rows.map fun r => r.getD d 0).sum) / (rows.length : ℚ) := by
  obtain ⟨r0, rest, rfl⟩ : ∃ a l, rows = a :: l := by
    cases rows with
    | nil => exact absurd rfl hne
    | cons a l => exact ⟨a, l, rfl⟩
  have h0 : r0.length = D := hrect r0 (by simp)
  rw [normalize_toEmb_cons, h0]
  refine ⟨by simp, fun d hd => ?_⟩
  simp [List.getD, List.getElem?_map, List.getElem?_range, hd]

/-- Witness for C2 at the concrete input [[1,2],[3,4]] (T = 2, D = 2). -/
theorem normalize_rank2_mean_witness :
    ([[(1 : ℚ), 2], [3, 4]] ≠ ([] : List (List ℚ))) ∧ 0 < 2 ∧
    (∀ r ∈ [[(1 : ℚ), 2], [3, 4]], r.length = 2) ∧
    ((normalize (toEmb [[(1 : ℚ), 2], [3, 4]])).length = 2 ∧
      ∀ d, d < 2 → (normalize (toEmb [[(1 : ℚ), 2], [3, 4]])).getD d 0 =
        (([[(1 : ℚ), 2], [3, 4]].map fun r => r.getD d 0).sum) /
          (([[(1 : ℚ), 2], [3, 4]] : List (List ℚ)).length : ℚ)) :=
  ⟨by decide, by decide, by decide,
    normalize_rank2_mean [[1, 2], [3, 4]] 2 (by decide) (by decide) (by decide)⟩

/-- C8 counterexample: the claim says an empty embedding-API result is
wrapped as a single-element vector, but `_normalize` returns
`list(result)`, the empty list, for an empty list input. -/
theorem normalize_empty_counterexample :
    normalize (EmbVal.arr []) = [] ∧ (normalize (EmbVal.arr [])).length ≠ 1 :=
  ⟨rfl, by decide⟩

/-- C8 amended: a non-sequence scalar result is wrapped as a single-element
vector, but an empty list input yields the empty list (the
`list(result) if hasattr(result, "__iter__")` branch). -/
theorem normalize_scalar_and_empty (x : ℚ) :
    normalize (EmbVal.num x) = [x] ∧ normalize (EmbVal.arr []) = [] :=
  ⟨rfl, rfl⟩

/-- C9: for every rank-3 embedding input (a non-empty list of rank-2 batch
elements), normalization returns the same vector as normalizing only the
first batch element. -/
theorem normalize_rank3_first_slice (b : EmbVal) (rest : List EmbVal)
    (hb : isRank2 b = true) (hrest : ∀ e ∈ rest, isRank2 e = true) :
    normalize (EmbVal.arr (b :: rest)) = normalize b := by
  cases b with
  | num x => simp [isRank2] at hb
  | arr rows =>
    cases rows with
    | nil => rfl
    | cons c0 cs =>
      cases c0 with
      | num y => simp [isRank2] at hb
      | arr cells =>
        cases cells with
        | nil => rfl
        | cons z zs =>
          cases z with
          | num w => rfl
          | arr l =>
            exfalso
            simp [isRank2, EmbVal.isList] at hb

/-- C1 counterexample: the sources returned for a non-empty result list are
`list(sources)` of a Python `set`, whose iteration order is unspecified; an
admissible order (here: reversed first-appearance order) differs from the
order of first appearance, refuting the claimed ordering at a two-source
result list. -/
theorem retrieve_context_order_counterexample :
    IsSetEnum (fun l => (distinctFirst l).reverse) ∧
    retrieve_context (fun l => (distinctFirst l).reverse)
        (.results [⟨"chunk one", some "a.pdf"⟩, ⟨"chunk two", some "b.pdf"⟩]) =
      ("chunk one\n\n---\n\nchunk two", ["b.pdf", "a.pdf"]) ∧
    distinctFirst ([RagResult.mk "chunk one" (some "a.pdf"),
        RagResult.mk "chunk two" (some "b.pdf")].map RagResult.sourceName) =
      ["a.pdf", "b.pdf"] ∧
    (["b.pdf", "a.pdf"] : List String) ≠ ["a.pdf", "b.pdf"] :=
  ⟨fun l => List.reverse_perm (distinctFirst l), by decide, by decide, by decide⟩

/-- C1 amended: for every retrieval query whose nearest-neighbor search
returns a non-empty result list, retrieve_context returns the retrieved
chunk texts concatenated with the visible separator together with the
distinct `source` metadata values of the results — in an unspecified order
(some permutation of the first-appearance list), not necessarily first
appearance. -/
theorem retrieve_context_sources_perm (enum : List String → List String)
    (henum : IsSetEnum enum) (r : RagResult) (rs : List RagResult) :
    (retrieve_context enum (.results (r :: rs))).1 =
      String.intercalate "\n\n---\n\n" ((r :: rs).map RagResult.doc) ∧
    (retrieve_context enum (.results (r :: rs))).2.Perm
      (distinctFirst ((r :: rs).map RagResult.sourceName)) :=
  ⟨rfl, henum _⟩

/-- Witness for the amended C1: the identity-order enumeration on a
three-hit result list with a repeated source. -/
theorem retrieve_context_sources_perm_witness :
    IsSetEnum distinctFirst ∧
    ((retrieve_context distinctFirst (.results [⟨"c1", some "a.pdf"⟩,
          ⟨"c2", some "b.pdf"⟩, ⟨"c3", some "a.pdf"⟩])).1 =
        String.intercalate "\n\n---\n\n" ([RagResult.mk "c1" (some "a.pdf"),
          RagResult.mk "c2" (some "b.pdf"),
          RagResult.mk "c3" (some "a.pdf")].map RagResult.doc) ∧
      (retrieve_context distinctFirst (.results [⟨"c1", some "a.pdf"⟩,
          ⟨"c2", some "b.pdf"⟩, ⟨"c3", some "a.pdf"⟩])).2.Perm
        (distinctFirst ([RagResult.mk "c1" (some "a.pdf"),
          RagResult.mk "c2" (some "b.pdf"),
          RagResult.mk "c3" (some "a.pdf")].map RagResult.sourceName))) :=
  ⟨fun l => List.Perm.refl _,
    retrieve_context_sources_perm distinctFirst (fun l => List.Perm.refl _) _ _⟩

/-- C4: whenever the collection lookup, the query-embedding computation, or
the search raises, or the search returns zero results, retrieve_context
returns `("", [])`; being a total function of the outcome, it never
propagates an exception. -/
theorem retrieve_context_degrades (enum : List String → List String) :
    retrieve_context enum .collectionError = ("", []) ∧
    retrieve_context enum .embedError = ("", []) ∧
    retrieve_context enum .searchError = ("", []) ∧
    retrieve_context enum (.results []) = ("", []) :=
  ⟨rfl, rfl, rfl, rfl⟩

/-- C5: for every content string that is empty or whitespace-only,
ingestion returns a chunk count of zero and issues no vector-store
operation, given the external splitter's contract that such content splits
into no chunks. -/
theorem ingest_whitespace_noop (split : String → List String)
    (hash8 : String → String) (content filename : String)
    (hsplit : SplitterSpec split) (hws : strippedEmpty content = true) :
    ingest_document split hash8 content filename = (0, []) ∧
    ingest_pdf split hash8 content filename = (0, []) := by
  have hc := hsplit content hws
  refine ⟨?_, ?_⟩
  · simp [ingest_document, hc]
  · simp [ingest_pdf, hws]

/-- Witness for C5 at whitespace-only content. -/
theorem ingest_whitespace_noop_witness :
    SplitterSpec (fun _ => []) ∧ strippedEmpty " \t\n" = true ∧
    (ingest_document (fun _ => []) (fun _ => "d41d8cd9") " \t\n" "doc.pdf" = (0, []) ∧
     ingest_pdf (fun _ => []) (fun _ => "d41d8cd9") " \t\n" "doc.pdf" = (0, [])) :=
  ⟨fun _ _ => rfl, by decide,
    ingest_whitespace_noop _ _ _ _ (fun _ _ => rfl) (by decide)⟩

/-- C6 counterexample: with the configured default verify token, mode
"subscribe" and a matching token but an empty challenge string, the route
returns 403 (Python truthiness: `if result:` on `""` is false), not the
claimed 200 echo. -/
theorem verify_webhook_empty_challenge_counterexample :
    ("subscribe" = "subscribe" ∧
      "multisense-verify-token" = "multisense-verify-token") ∧
    verify_webhook_route "multisense-verify-token" "subscribe"
        "multisense-verify-token" "" =
      HttpResponse.mk 403 "Webhook verification failed" ∧
    verify_webhook_route "multisense-verify-token" "subscribe"
        "multisense-verify-token" "" ≠ HttpResponse.mk 200 "" :=
  ⟨⟨rfl, rfl⟩, by decide, by decide⟩

/-- C6 amended: the response echoes the challenge with 200 exactly when
mode is "subscribe", the token equals the configured secret, and the
challenge is non-empty; otherwise (including a valid handshake with an
empty challenge) it is 403. -/
theorem verify_webhook_route_spec (verifyToken mode token challenge : String) :
    verify_webhook_route verifyToken mode token challenge =
      if mode = "subscribe" ∧ token = verifyToken ∧ challenge ≠ "" then
        HttpResponse.mk 200 challenge
      else HttpResponse.mk 403 "Webhook verification failed" := by
  by_cases h1 : mode = "subscribe" ∧ token = verifyToken
  · by_cases h2 : challenge = ""
    · rw [if_neg (fun hc => hc.2.2 h2)]
      simp [verify_webhook_route, verify_webhook, pyTruthyStr, h1, h2,
        String.isEmpty_iff]
    · rw [if_pos ⟨h1.1, h1.2, h2⟩]
      simp [verify_webhook_route, verify_webhook, pyTruthyStr, h1,
        String.isEmpty_iff, h2]
  · rw [if_neg (fun hc => h1 ⟨hc.1, hc.2.1⟩)]
    simp [verify_webhook_route, verify_webhook, pyTruthyStr, h1]

/-- Witness for C9 at a concrete rank-3 input with two batch elements. -/
theorem normalize_rank3_first_slice_witness :
    isRank2 (EmbVal.arr [EmbVal.arr [EmbVal.num 1, EmbVal.num 2]]) = true ∧
    (∀ e ∈ [EmbVal.arr [EmbVal.arr [EmbVal.num 9]]], isRank2 e = true) ∧
    normalize (EmbVal.arr (EmbVal.arr [EmbVal.arr [EmbVal.num 1, EmbVal.num 2]] ::
        [EmbVal.arr [EmbVal.arr [EmbVal.num 9]]])) =
      normalize (EmbVal.arr [EmbVal.arr [EmbVal.num 1, EmbVal.num 2]]) :=
  ⟨rfl, by simp [isRank2, EmbVal.isList], normalize_rank3_first_slice _ _ rfl
    (by simp [isRank2, EmbVal.isList])⟩


/-! ### Association-list lemmas for the conversation dict -/

/-- A dict write is visible to a subsequent read of the same key. -/
theorem findConv_updateConv_self (st : MemoryState) (sid : String) (c : Conv) :
    findConv (updateConv st sid c) sid = some c := by
  induction st with
  | nil => simp [updateConv, findConv]
  | cons hd tl ih =>
    obtain ⟨k, v⟩ := hd
    by_cases hk : k = sid
    · simp [updateConv, findConv, hk]
    · simp [updateConv, findConv, hk, ih]

/-- A key is unfindable exactly when it is not among the dict's keys. -/
theorem findConv_eq_none_iff (st : MemoryState) (sid : String) :
    findConv st sid = none ↔ sid ∉ st.map Prod.fst := by
  induction st with
  | nil => simp [findConv]
  | cons hd tl ih =>
    obtain ⟨k, v⟩ := hd
    by_cases hk : k = sid
    · simp [findConv, hk]
    · simp [findConv, hk, ih, Ne.symm hk]

/-- Keys after a write: the written key joins the key list, the others
stay. -/
theorem mem_keys_updateConv (st : MemoryState) (sid a : String) (c : Conv) :
    a ∈ (updateConv st sid c).map Prod.fst ↔ a ∈ st.map Prod.fst ∨ a = sid := by
  induction st with
  | nil => simp [updateConv]
  | cons hd tl ih =>
    obtain ⟨k, v⟩ := hd
    by_cases hk : k = sid
    · subst hk
      simp [updateConv]
      tauto
    · simp [updateConv, hk, ih]
      tauto

/-- A dict write preserves distinctness of keys. -/
theorem keysNodup_updateConv (st : MemoryState) (sid : String) (c : Conv)
    (h : keysNodup st) : keysNodup (updateConv st sid c) := by
  induction st with
  | nil => simp [keysNodup, updateConv]
  | cons hd tl ih =>
    obtain ⟨k, v⟩ := hd
    rw [keysNodup, List.map_cons, List.nodup_cons] at h
    by_cases hk : k = sid
    · subst hk
      have hu : updateConv ((k, v) :: tl) k c = (k, c) :: tl := by
        simp [updateConv]
      rw [keysNodup, hu]
      simp only [List.map_cons, List.nodup_cons]
      exact ⟨h.1, h.2⟩
    · have hu : updateConv ((k, v) :: tl) sid c = (k, v) :: updateConv tl sid c := by
        simp [updateConv, hk]
      rw [keysNodup, hu]
      simp only [List.map_cons, List.nodup_cons]
      refine ⟨fun hmem => ?_, ih h.2⟩
      rcases (mem_keys_updateConv tl sid k c).mp hmem with h1 | h1
      · exact h.1 h1
      · exact hk h1

/-- With distinct keys, filtering the dict either keeps a stored binding
untouched or removes it, according to the predicate. -/
theorem findConv_filter (st : MemoryState) (sid : String) (c : Conv)
    (p : String × Conv → Bool) (hnd : keysNodup st)
    (hfind : findConv st sid = some c) :
    findConv (st.filter p) sid = if p (sid, c) then some c else none := by
  induction st with
  | nil => simp [findConv] at hfind
  | cons hd tl ih =>
    obtain ⟨k, v⟩ := hd
    rw [keysNodup, List.map_cons, List.nodup_cons] at hnd
    by_cases hk : k = sid
    · subst hk
      have hvc : v = c := by simpa [findConv] using hfind
      subst hvc
      rw [List.filter_cons]
      by_cases hp : p (k, v)
      · rw [if_pos hp, if_pos hp]
        simp [findConv]
      · rw [if_neg hp, if_neg hp]
        rw [findConv_eq_none_iff]
        intro hmem
        exact hnd.1 (List.Sublist.mem hmem ((List.filter_sublist tl).map Prod.fst))
    · have hfind2 : findConv tl sid = some c := by simpa [findConv, hk] using hfind
      rw [List.filter_cons]
      by_cases hp : p (k, v)
      · rw [if_pos hp]
        have hskip : findConv ((k, v) :: tl.filter p) sid = findConv (tl.filter p) sid := by
          simp [findConv, hk]
        rw [hskip]
        exact ih hnd.2 hfind2
      · rw [if_neg hp]
        exact ih hnd.2 hfind2

/-! ### Turn-list lemmas for `add_turn` -/

/-- One `add_turn` on a session rewrites exactly that session's stored
turn list by the list-level step. -/
theorem turnsOf_add_turn (maxHistory : Nat) (st : MemoryState) (sid : String)
    (role content : String) (mtype : MessageType) (now : ℤ) :
    turnsOf (add_turn maxHistory st sid role content mtype now) sid =
      addTurnList maxHistory (turnsOf st sid) ⟨role, content, mtype⟩ := by
  rw [add_turn]
  rw [turnsOf, findConv_updateConv_self]
  cases hf : findConv st sid with
  | none => simp [turnsOf, hf]
  | some conv => simp [turnsOf, hf]

/-- Folding a call sequence reduces to folding the list-level step over the
turns. -/
theorem turnsOf_addTurns (maxHistory : Nat) (st : MemoryState) (sid : String)
    (entries : List (Turn × ℤ)) :
    turnsOf (addTurns maxHistory st sid entries) sid =
      (entries.map Prod.fst).foldl (addTurnList maxHistory) (turnsOf st sid) := by
  induction entries generalizing st with
  | nil => rfl
  | cons e es ih =>
    rw [addTurns, List.foldl_cons, List.map_cons, List.foldl_cons]
    rw [← addTurns, ih, turnsOf_add_turn]

/-- The step applied to a kept suffix is the kept suffix of the extended
list. -/
theorem addTurnList_drop (m : Nat) (hm : 1 ≤ m) (ts : List Turn) (t : Turn) :
    addTurnList m (ts.drop (ts.length - m)) t =
      (ts ++ [t]).drop ((ts.length + 1) - m) := by
  by_cases h : ts.length < m
  · have h1 : ts.length - m = 0 := Nat.sub_eq_zero_of_le (le_of_lt h)
    have h2 : ts.length + 1 - m = 0 := Nat.sub_eq_zero_of_le h
    rw [h1, List.drop_zero, h2, List.drop_zero, addTurnList]
    rw [if_neg (by simp; omega)]
  · push_neg at h
    have hlen : (ts.drop (ts.length - m)).length = m := by
      rw [List.length_drop]; omega
    rw [addTurnList]
    rw [if_pos (by rw [List.length_append, hlen]; simp)]
    rw [pyTailSlice, if_neg (by omega : ¬ m = 0)]
    rw [List.length_append, hlen]
    have h1 : m + [t].length - m = 1 := by simp
    rw [h1]
    rw [List.drop_append_of_le_length (by omega : 1 ≤ (ts.drop (ts.length - m)).length)]
    rw [List.drop_drop]
    rw [List.drop_append_of_le_length (by omega : ts.length + 1 - m ≤ ts.length)]
    congr 2
    omega

/-- Folding the step from an empty history keeps exactly the most recent
`m` turns, in order. -/
theorem foldl_addTurnList_nil (m : Nat) (hm : 1 ≤ m) (ts : List Turn) :
    ts.foldl (addTurnList m) [] = ts.drop (ts.length - m) := by
  induction ts using List.reverseRecOn with
  | nil => simp
  | append_singleton ts t ih =>
    rw [List.foldl_append, List.foldl_cons, List.foldl_nil, ih,
      addTurnList_drop m hm ts t, List.length_append]
    rfl

/-- The step never grows the history beyond the configured maximum. -/
theorem addTurnList_length_le (m : Nat) (hm : 1 ≤ m) (l : List Turn) (t : Turn)
    (h : l.length ≤ m) : (addTurnList m l t).length ≤ m := by
  rw [addTurnList]
  by_cases hc : m < (l ++ [t]).length
  · rw [if_pos hc, pyTailSlice, if_neg (by omega : ¬ m = 0), List.length_drop]
    omega
  · rw [if_neg hc]
    simp only [List.length_append, List.length_cons, List.length_nil,
      not_lt] at hc ⊢
    omega

/-- Folding the step preserves the length bound. -/
theorem foldl_addTurnList_length_le (m : Nat) (hm : 1 ≤ m) (ts : List Turn)
    (init : List Turn) (h : init.length ≤ m) :
    (ts.foldl (addTurnList m) init).length ≤ m := by
  induction ts generalizing init with
  | nil => exact h
  | cons t ts ih =>
    rw [List.foldl_cons]
    exact ih _ (addTurnList_length_le m hm init t h)

/-- C3: for every session and every sequence of N `add_turn` calls on it
(starting from a state without that session), the stored turn list equals
the suffix of the most recently added turns in insertion order, has length
exactly the configured maximum once N exceeds it, and no call sequence ever
leaves it longer than the maximum (maximum ≥ 1, the configured default
being 20). -/
theorem add_turn_history_bounded (maxHistory : Nat) (sid : String)
    (entries : List (Turn × ℤ)) (st : MemoryState) (hm : 1 ≤ maxHistory) :
    (findConv st sid = none →
      turnsOf (addTurns maxHistory st sid entries) sid =
        (entries.map Prod.fst).drop (entries.length - maxHistory) ∧
      (maxHistory < entries.length →
        (turnsOf (addTurns maxHistory st sid entries) sid).length = maxHistory)) ∧
    ((turnsOf st sid).length ≤ maxHistory →
      (turnsOf (addTurns maxHistory st sid entries) sid).length ≤ maxHistory) := by
  constructor
  · intro habs
    have hbase : turnsOf st sid = [] := by rw [turnsOf, habs]; rfl
    have heq : turnsOf (addTurns maxHistory st sid entries) sid =
        (entries.map Prod.fst).drop (entries.length - maxHistory) := by
      rw [turnsOf_addTurns, hbase, foldl_addTurnList_nil maxHistory hm]
      rw [List.length_map]
    refine ⟨heq, fun hN => ?_⟩
    rw [heq, List.length_drop, List.length_map]
    omega
  · intro hle
    rw [turnsOf_addTurns]
    exact foldl_addTurnList_length_le maxHistory hm _ _ hle

/-- Witness for C3: three turns into an empty state with maximum 2 keep the
last two turns. -/
theorem add_turn_history_bounded_witness :
    (1 ≤ 2) ∧
    ((findConv ([] : MemoryState) "s" = none →
      turnsOf (addTurns 2 ([] : MemoryState) "s"
          [(⟨"user", "a", .text⟩, 0), (⟨"assistant", "b", .text⟩, 1),
            (⟨"user", "c", .text⟩, 2)]) "s" =
        ([(⟨"user", "a", .text⟩, (0 : ℤ)), (⟨"assistant", "b", .text⟩, 1),
            (⟨"user", "c", .text⟩, 2)].map Prod.fst).drop
          ([((⟨"user", "a", .text⟩ : Turn), (0 : ℤ)), (⟨"assistant", "b", .text⟩, 1),
            (⟨"user", "c", .text⟩, 2)].length - 2) ∧
      (2 < [((⟨"user", "a", .text⟩ : Turn), (0 : ℤ)), (⟨"assistant", "b", .text⟩, 1),
            (⟨"user", "c", .text⟩, 2)].length →
        (turnsOf (addTurns 2 ([] : MemoryState) "s"
          [(⟨"user", "a", .text⟩, 0), (⟨"assistant", "b", .text⟩, 1),
            (⟨"user", "c", .text⟩, 2)]) "s").length = 2)) ∧
    ((turnsOf ([] : MemoryState) "s").length ≤ 2 →
      (turnsOf (addTurns 2 ([] : MemoryState) "s"
          [(⟨"user", "a", .text⟩, 0), (⟨"assistant", "b", .text⟩, 1),
            (⟨"user", "c", .text⟩, 2)]) "s").length ≤ 2)) :=
  ⟨by decide,
    add_turn_history_bounded 2 "s"
      [(⟨"user", "a", .text⟩, 0), (⟨"assistant", "b", .text⟩, 1),
        (⟨"user", "c", .text⟩, 2)] ([] : MemoryState) (by decide)⟩


/-- C7: a session whose last-modified instant is older than `now - ttl` is
returned empty by `get_history`, is absent from `get_active_sessions`, and
both reads leave only unexpired sessions in the swept state. -/
theorem expired_session_invisible (ttl now : ℤ) (st : MemoryState)
    (sid : String) (conv : Conv) (hnd : keysNodup st)
    (hfind : findConv st sid = some conv)
    (hexp : conv.updatedAt < now - ttl) :
    (get_history ttl now st sid).1 = [] ∧
    sid ∉ (get_active_sessions ttl now st).1 ∧
    (∀ p ∈ (get_history ttl now st sid).2, ¬ (p.2.updatedAt < now - ttl)) := by
  have hnone : findConv (cleanupExpired ttl now st) sid = none := by
    rw [cleanupExpired, findConv_filter st sid conv _ hnd hfind]
    rw [if_neg (by simp [hexp])]
  refine ⟨?_, ?_, ?_⟩
  · simp only [get_history, turnsOf, hnone]
    rfl
  · intro hmem
    rw [findConv_eq_none_iff] at hnone
    exact hnone (by simpa [get_active_sessions] using hmem)
  · intro p hp
    simp only [get_history, cleanupExpired] at hp
    have := List.of_mem_filter hp
    simpa using this

/-- Witness for C7: a session last written at instant 0, read at instant
100 with a TTL of 10. -/
theorem expired_session_invisible_witness :
    keysNodup [("s", Conv.mk [] 0)] ∧
    findConv [("s", Conv.mk [] 0)] "s" = some (Conv.mk [] 0) ∧
    (Conv.mk [] 0).updatedAt < 100 - 10 ∧
    ((get_history 10 100 [("s", Conv.mk [] 0)] "s").1 = [] ∧
      "s" ∉ (get_active_sessions 10 100 [("s", Conv.mk [] 0)]).1 ∧
      (∀ p ∈ (get_history 10 100 [("s", Conv.mk [] 0)] "s").2,
        ¬ (p.2.updatedAt < 100 - 10))) :=
  ⟨by simp [keysNodup], by simp [findConv], by decide,
    expired_session_invisible 10 100 [("s", Conv.mk [] 0)] "s" (Conv.mk [] 0)
      (by simp [keysNodup]) (by simp [findConv]) (by decide)⟩


/-! ### Lemmas for `process_text` -/

/-- The trimmed append always ends with the appended turn (maximum ≥ 1). -/
theorem addTurnList_concat (m : Nat) (hm : 1 ≤ m) (l : List Turn) (t : Turn) :
    ∃ pre, addTurnList m l t = pre ++ [t] := by
  rw [addTurnList]
  by_cases hc : m < (l ++ [t]).length
  · rw [if_pos hc, pyTailSlice, if_neg (by omega : ¬ m = 0)]
    exact ⟨l.drop ((l ++ [t]).length - m),
      List.drop_append_of_le_length (by simp; omega)⟩
  · rw [if_neg hc]
    exact ⟨l, rfl⟩

/-- The trimmed append keeps the previous last turn next to the new one
(maximum ≥ 2). -/
theorem addTurnList_concat_two (m : Nat) (hm : 2 ≤ m) (pre : List Turn)
    (u t : Turn) : ∃ pre2, addTurnList m (pre ++ [u]) t = pre2 ++ [u, t] := by
  rw [addTurnList]
  have happ : (pre ++ [u]) ++ [t] = pre ++ [u, t] := by simp
  by_cases hc : m < ((pre ++ [u]) ++ [t]).length
  · rw [if_pos hc, pyTailSlice, if_neg (by omega : ¬ m = 0), happ]
    refine ⟨pre.drop ((pre ++ [u, t]).length - m), ?_⟩
    refine List.drop_append_of_le_length ?_
    simp only [List.length_append, List.length_cons, List.length_nil] at hc ⊢
    omega
  · rw [if_neg hc, happ]
    exact ⟨pre, rfl⟩

/-- Overwriting the last message's content rewrites exactly the final
element. -/
theorem setLastContent_append (pre : List ChatMessage) (m : ChatMessage)
    (c : String) :
    setLastContent (pre ++ [m]) c = pre ++ [{ m with content := c }] := by
  induction pre with
  | nil => rfl
  | cons a pre ih =>
    cases hp : pre ++ [m] with
    | nil => exact absurd hp (by simp)
    | cons x xs =>
      rw [List.cons_append, hp]
      show a :: setLastContent (x :: xs) c = a :: pre ++ [{ m with content := c }]
      rw [← hp, ih]
      rfl

/-- The augmented prompt is never the bare user text (it strictly extends
it). -/
theorem augmentedPrompt_ne (c text : String) : augmentedPrompt c text ≠ text := by
  intro h
  have hlen := congrArg String.length h
  rw [augmentedPrompt] at hlen
  simp only [String.length_append] at hlen
  have hq : 0 < ("User Question: " : String).length := by decide
  omega

/-- Full unfolding of `process_text` with RAG enabled. -/
theorem process_text_eq (maxHistory : Nat) (ttl : ℤ)
    (enum : List String → List String) (st : MemoryState)
    (sid text llmReply : String) (ragOutcome : RagQueryOutcome) (now : ℤ) :
    process_text maxHistory ttl enum st sid text true ragOutcome llmReply now =
      (add_turn maxHistory
        (cleanupExpired ttl now (add_turn maxHistory st sid "user" text .text now))
        sid "assistant" llmReply .text now,
       (if ((turnsOf (cleanupExpired ttl now
              (add_turn maxHistory st sid "user" text .text now)) sid).map
            (fun t => ChatMessage.mk t.role t.content)).isEmpty then
          ((turnsOf (cleanupExpired ttl now
              (add_turn maxHistory st sid "user" text .text now)) sid).map
            (fun t => ChatMessage.mk t.role t.content))
        else
          setLastContent
            ((turnsOf (cleanupExpired ttl now
                (add_turn maxHistory st sid "user" text .text now)) sid).map
              (fun t => ChatMessage.mk t.role t.content))
            (if (retrieve_context enum ragOutcome).1.isEmpty then text
             else augmentedPrompt (retrieve_context enum ragOutcome).1 text)),
       ProcessReply.mk llmReply sid (retrieve_context enum ragOutcome).2) := rfl

/-- C10: with RAG enabled and a non-empty retrieved context, the augmented
prompt reaches only the message list handed to the language model; the user
turn stored in memory keeps the original text (the rebuilt dicts are fresh,
so mutating the last one does not touch the stored turns).  Requires a
history maximum of at least 2 (default 20), a non-negative TTL (default 24)
and the dict key invariant. -/
theorem process_text_keeps_stored_text (maxHistory : Nat) (ttl : ℤ)
    (enum : List String → List String) (st : MemoryState)
    (sid text llmReply : String) (ragOutcome : RagQueryOutcome) (now : ℤ)
    (hm : 2 ≤ maxHistory) (httl : 0 ≤ ttl) (hnd : keysNodup st)
    (hctx : (retrieve_context enum ragOutcome).1 ≠ "") :
    (∃ pre, turnsOf
        (process_text maxHistory ttl enum st sid text true ragOutcome llmReply now).1 sid =
      pre ++ [Turn.mk "user" text .text, Turn.mk "assistant" llmReply .text]) ∧
    (process_text maxHistory ttl enum st sid text true ragOutcome llmReply now).2.1.getLast? =
      some (ChatMessage.mk "user"
        (augmentedPrompt (retrieve_context enum ragOutcome).1 text)) ∧
    augmentedPrompt (retrieve_context enum ragOutcome).1 text ≠ text := by
  have hm1 : 1 ≤ maxHistory := by omega
  have hu : turnsOf (add_turn maxHistory st sid "user" text .text now) sid =
      addTurnList maxHistory (turnsOf st sid) ⟨"user", text, .text⟩ :=
    turnsOf_add_turn maxHistory st sid "user" text .text now
  obtain ⟨p1, hp1⟩ := addTurnList_concat maxHistory hm1 (turnsOf st sid)
    ⟨"user", text, .text⟩
  have hf1 : findConv (add_turn maxHistory st sid "user" text .text now) sid =
      some ⟨addTurnList maxHistory
        ((findConv st sid).getD ⟨[], now⟩).turns ⟨"user", text, .text⟩, now⟩ :=
    findConv_updateConv_self st sid _
  have hnd1 : keysNodup (add_turn maxHistory st sid "user" text .text now) :=
    keysNodup_updateConv st sid _ hnd
  have hf2 : findConv (cleanupExpired ttl now
      (add_turn maxHistory st sid "user" text .text now)) sid =
      some ⟨addTurnList maxHistory
        ((findConv st sid).getD ⟨[], now⟩).turns ⟨"user", text, .text⟩, now⟩ := by
    rw [cleanupExpired, findConv_filter _ sid _ _ hnd1 hf1]
    rw [if_pos (by simp; omega)]
  have hkeep : turnsOf (cleanupExpired ttl now
      (add_turn maxHistory st sid "user" text .text now)) sid =
      turnsOf (add_turn maxHistory st sid "user" text .text now) sid := by
    rw [turnsOf, hf2, turnsOf, hf1]
  have hturns : turnsOf (cleanupExpired ttl now
      (add_turn maxHistory st sid "user" text .text now)) sid =
      p1 ++ [⟨"user", text, .text⟩] := by
    rw [hkeep, hu, hp1]
  have hmsgs : ((turnsOf (cleanupExpired ttl now
      (add_turn maxHistory st sid "user" text .text now)) sid).map
        (fun t => ChatMessage.mk t.role t.content)) =
      (p1.map fun t => ChatMessage.mk t.role t.content) ++
        [ChatMessage.mk "user" text] := by
    rw [hturns, List.map_append]
    rfl
  have hne : ((turnsOf (cleanupExpired ttl now
      (add_turn maxHistory st sid "user" text .text now)) sid).map
        (fun t => ChatMessage.mk t.role t.content)).isEmpty = false := by
    rw [hmsgs]
    simp
  have haug : (if (retrieve_context enum ragOutcome).1.isEmpty then text
      else augmentedPrompt (retrieve_context enum ragOutcome).1 text) =
      augmentedPrompt (retrieve_context enum ragOutcome).1 text := by
    rw [if_neg]
    rw [Bool.not_eq_true, Bool.eq_false_iff]
    intro he
    exact hctx ((String.isEmpty_iff _).mp he)
  rw [process_text_eq]
  refine ⟨?_, ?_, augmentedPrompt_ne _ _⟩
  · have ha : turnsOf (add_turn maxHistory
        (cleanupExpired ttl now (add_turn maxHistory st sid "user" text .text now))
        sid "assistant" llmReply .text now) sid =
        addTurnList maxHistory (p1 ++ [⟨"user", text, .text⟩])
          ⟨"assistant", llmReply, .text⟩ := by
      rw [turnsOf_add_turn, hturns]
    obtain ⟨p2, hp2⟩ := addTurnList_concat_two maxHistory hm p1
      ⟨"user", text, .text⟩ ⟨"assistant", llmReply, .text⟩
    exact ⟨p2, by rw [ha, hp2]⟩
  · rw [hne]
    simp only [Bool.false_eq_true, if_false]
    rw [haug, hmsgs, setLastContent_append]
    rw [List.getLast?_concat]

/-- Witness for C10: one text message against a single-hit retrieval, empty
initial memory, maximum 2, TTL 24. -/
theorem process_text_keeps_stored_text_witness :
    (2 ≤ 2) ∧ ((0 : ℤ) ≤ 24) ∧ keysNodup ([] : MemoryState) ∧
    (retrieve_context distinctFirst
      (.results [RagResult.mk "ctx" (some "a.pdf")])).1 ≠ "" ∧
    ((∃ pre, turnsOf
        (process_text 2 24 distinctFirst ([] : MemoryState) "s" "hi" true
          (.results [RagResult.mk "ctx" (some "a.pdf")]) "ok" 0).1 "s" =
      pre ++ [Turn.mk "user" "hi" .text, Turn.mk "assistant" "ok" .text]) ∧
    (process_text 2 24 distinctFirst ([] : MemoryState) "s" "hi" true
        (.results [RagResult.mk "ctx" (some "a.pdf")]) "ok" 0).2.1.getLast? =
      some (ChatMessage.mk "user"
        (augmentedPrompt (retrieve_context distinctFirst
          (.results [RagResult.mk "ctx" (some "a.pdf")])).1 "hi")) ∧
    augmentedPrompt (retrieve_context distinctFirst
      (.results [RagResult.mk "ctx" (some "a.pdf")])).1 "hi" ≠ "hi") :=
  ⟨by decide, by decide, by simp [keysNodup], by decide,
    process_text_keeps_stored_text 2 24 distinctFirst ([] : MemoryState)
      "s" "hi" "ok" (.results [RagResult.mk "ctx" (some "a.pdf")]) 0
      (by decide) (by decide) (by simp [keysNodup]) (by decide)⟩


end MultiSense
